import Mathlib

/-!
Verification of the sparse Game of Life engine in `life.py`.

The board is a Python `dict` subclass mapping coordinates to stored values,
with `__missing__` returning 0 for absent keys.  We embed it as a structure
holding the association list of entries (Python dicts are insertion ordered),
with a first-match lookup defaulting to 0.
-/

set_option autoImplicit false

/-- A cell coordinate: an ordered pair of signed integers. -/
abbrev Coord := Int × Int

/-- A Game of Life board, represented as a dictionary: the insertion-ordered
list of key/value entries of the underlying Python `dict`. -/
structure Life where
  entries : List (Coord × Nat)
deriving DecidableEq, Repr

/-- First-match lookup in the entry list; an absent key yields the
`__missing__` default 0. -/
def lookupEntry : List (Coord × Nat) → Coord → Nat
  | [], _ => 0
  | e :: rest, p => if e.1 = p then e.2 else lookupEntry rest p

/-- Reading `self[p]`: the stored value, or 0 via `__missing__` when absent. -/
def Life.get (b : Life) (p : Coord) : Nat :=
  lookupEntry b.entries p

/-- The key list `self.keys()` of the board, in insertion order. -/
def Life.keysList (b : Life) : List Coord :=
  b.entries.map Prod.fst

/-- The set of live coordinates of a board. -/
def Life.liveSet (b : Life) : Finset Coord :=
  b.keysList.toFinset

/-- The 3x3 block of coordinates centered at `(x, y)`, in the order the
nested `for x_coord in x_coords: for y_coord in y_coords` loops visit it. -/
def blockCoords (p : Coord) : List Coord :=
  [(p.1 - 1, p.2 - 1), (p.1 - 1, p.2), (p.1 - 1, p.2 + 1),
   (p.1, p.2 - 1), (p.1, p.2), (p.1, p.2 + 1),
   (p.1 + 1, p.2 - 1), (p.1 + 1, p.2), (p.1 + 1, p.2 + 1)]

/-- The running total `total` of `check_cell`: sum of the values of all
cells in the 3x3 block centered at `p`, including `p` itself. -/
def Life.total (b : Life) (p : Coord) : Nat :=
  (blockCoords p).foldl (fun t q => t + b.get q) 0

/-- One check step for a cell, from `Life.check_cell`.  Returns the pair
`(live, dead)` of cells scheduled to be born or to die.  The death guard is
the Python expression `total < 3 or total > 4 and cell`, which parses as
`total < 3 or (total > 4 and cell)`. -/
def Life.check_cell (b : Life) (p : Coord) : List Coord × List Coord :=
  let total := b.total p
  let cell := b.get p
  if total = 3 ∧ cell = 0 then ([p], [])
  else if total < 3 ∨ (4 < total ∧ cell ≠ 0) then ([], [p])
  else ([], [])

/-- All cells checked this transition: for each live key, its whole 3x3
block, from `Life.queue_cells`. -/
def Life.queue_cells (b : Life) : List Coord :=
  b.keysList.flatMap blockCoords

/-- The accumulated `live` list of `play_game`: births collected over the
whole queue against the unmodified board. -/
def Life.liveList (b : Life) : List Coord :=
  b.queue_cells.flatMap (fun p => (b.check_cell p).1)

/-- The accumulated `dead` list of `play_game`: deaths collected over the
whole queue against the unmodified board. -/
def Life.deadList (b : Life) : List Coord :=
  b.queue_cells.flatMap (fun p => (b.check_cell p).2)

/-- Removing the entry of key `p` (Python `del self[p]`, first occurrence). -/
def delEntry : List (Coord × Nat) → Coord → List (Coord × Nat)
  | [], _ => []
  | e :: rest, p => if e.1 = p then rest else e :: delEntry rest p

/-- Storing `self[p] = v`: replace the value at an existing key in place, or
append a new entry at the end (Python dict insertion order). -/
def setEntry : List (Coord × Nat) → Coord → Nat → List (Coord × Nat)
  | [], p, v => [(p, v)]
  | e :: rest, p, v => if e.1 = p then (p, v) :: rest else e :: setEntry rest p v

/-- Board-level key deletion. -/
def Life.delKey (b : Life) (p : Coord) : Life :=
  ⟨delEntry b.entries p⟩

/-- Board-level key assignment. -/
def Life.setKey (b : Life) (p : Coord) (v : Nat) : Life :=
  ⟨setEntry b.entries p v⟩

/-- The death-application loop of `play_game`:
`for x, y in dead: if self[x, y]: del self[x, y]`. -/
def Life.applyDeaths (b : Life) (l : List Coord) : Life :=
  l.foldl (fun s p => if s.get p ≠ 0 then s.delKey p else s) b

/-- The birth-application loop of `play_game`: `for x, y in live: self[x, y] = 1`. -/
def Life.applyBirths (b : Life) (l : List Coord) : Life :=
  l.foldl (fun s p => s.setKey p 1) b

/-- One turn of the game, from `Life.play_game`: collect all transitions
from the unmodified board, then apply all deaths, then all births. -/
def Life.play_game (b : Life) : Life :=
  (b.applyDeaths b.deadList).applyBirths b.liveList

/-- Well-formedness of the dictionary representation: keys are distinct (as
in any Python dict) and every stored value is the alive marker 1. -/
def Life.WF (b : Life) : Prop :=
  b.keysList.Nodup ∧ ∀ e ∈ b.entries, e.2 = 1

instance (b : Life) : Decidable b.WF := by
  unfold Life.WF; exact inferInstance

/-- The 8 immediate (8-connected) neighbors of a coordinate, excluding the
coordinate itself. -/
def neighbors (p : Coord) : List Coord :=
  [(p.1 - 1, p.2 - 1), (p.1 - 1, p.2), (p.1 - 1, p.2 + 1),
   (p.1, p.2 - 1), (p.1, p.2 + 1),
   (p.1 + 1, p.2 - 1), (p.1 + 1, p.2), (p.1 + 1, p.2 + 1)]

/-- Modelled from the spec: the count of live cells among the 8 neighbors of
`p`, the cell itself excluded — the textbook neighbor count. -/
def neighborCount (b : Life) (p : Coord) : Nat :=
  ((neighbors p).map (fun q => b.get q)).sum

/-- Modelled from the spec: the textbook Game of Life rule over the neighbor
count excluding self — a dead cell becomes alive iff it has exactly 3 live
neighbors, a live cell stays alive iff it has exactly 2 or 3. -/
def standardNext (b : Life) (p : Coord) : Bool :=
  if b.get p ≠ 0 then neighborCount b p = 2 ∨ neighborCount b p = 3
  else neighborCount b p = 3

/-- Shifting a coordinate by a constant vector `d`. -/
def shift (d p : Coord) : Coord :=
  (p.1 + d.1, p.2 + d.2)

/-- Translating every entry of a board by a constant vector. -/
def Life.translate (b : Life) (d : Coord) : Life :=
  ⟨b.entries.map (fun e => (shift d e.1, e.2))⟩

/-- State-threaded lookup: `__getitem__` returns the stored value for a
present key, and for an absent key `__missing__` returns 0 and leaves the
dictionary unchanged (it performs no insertion). -/
def lookupEntryS : List (Coord × Nat) → Coord → Nat × List (Coord × Nat)
  | [], _ => (0, [])
  | e :: rest, p =>
    if e.1 = p then (e.2, e :: rest)
    else
      let r := lookupEntryS rest p
      (r.1, e :: r.2)

/-- Board-level state-threaded read of `self[p]`. -/
def Life.getS (b : Life) (p : Coord) : Nat × Life :=
  let r := lookupEntryS b.entries p
  (r.1, ⟨r.2⟩)

/-- The check step with every dictionary read threaded through the state, to
make visible that `check_cell` never modifies the stored entries. -/
def Life.check_cellS (b : Life) (p : Coord) : (List Coord × List Coord) × Life :=
  let r := (blockCoords p).foldl (fun acc q =>
    let g := acc.2.getS q
    (acc.1 + g.1, g.2)) (0, b)
  let c := r.2.getS p
  if r.1 = 3 ∧ c.1 = 0 then (([p], []), c.2)
  else if r.1 < 3 ∨ (4 < r.1 ∧ c.1 ≠ 0) then (([], [p]), c.2)
  else (([], []), c.2)

/-- Deletion as Python performs it: `del self[p]` raises `KeyError` (here
`none`) when the key is absent. -/
def delEntryE : List (Coord × Nat) → Coord → Option (List (Coord × Nat))
  | [], _ => none
  | e :: rest, p =>
    if e.1 = p then some rest else (delEntryE rest p).map (fun r => e :: r)

/-- The death-application loop with the fallible deletion, to make visible
that the `if self[x, y]` guard shields every `del` from a `KeyError`. -/
def Life.applyDeathsE (b : Life) (l : List Coord) : Option Life :=
  l.foldlM
    (fun s p => if s.get p ≠ 0 then (delEntryE s.entries p).map Life.mk else some s) b

/-- One turn of the game with the fallible deletion. -/
def Life.play_gameE (b : Life) : Option Life :=
  (b.applyDeathsE b.deadList).map (fun s => s.applyBirths b.liveList)

/-- The turn with the two application loops swapped: births applied before
deaths. -/
def Life.play_game_birthsFirst (b : Life) : Life :=
  (b.applyBirths b.liveList).applyDeaths b.deadList

/-- A board holding one live cell at the origin. -/
def singleBoard : Life := ⟨[((0, 0), 1)]⟩

/-- A horizontal blinker: three live cells in a row. -/
def blinkerBoard : Life := ⟨[((1, 0), 1), ((2, 0), 1), ((3, 0), 1)]⟩

/-- The blinker with its entries inserted in the reverse order. -/
def blinkerBoardRev : Life := ⟨[((3, 0), 1), ((2, 0), 1), ((1, 0), 1)]⟩

/-! ### Basic lemmas about the dictionary operations -/

theorem lookupEntry_eq_zero {l : List (Coord × Nat)} {p : Coord}
    (h : p ∉ l.map Prod.fst) : lookupEntry l p = 0 := by
  induction l with
  | nil => rfl
  | cons e rest ih =>
    simp only [List.map_cons, List.mem_cons, not_or] at h
    simp only [lookupEntry, ih h.2]
    exact if_neg (fun he => h.1 he.symm)

theorem mem_keys_of_lookupEntry_ne {l : List (Coord × Nat)} {p : Coord}
    (h : lookupEntry l p ≠ 0) : p ∈ l.map Prod.fst := by
  by_contra hmem
  exact h (lookupEntry_eq_zero hmem)

theorem lookupEntry_eq_of_mem {l : List (Coord × Nat)} {p : Coord} {v : Nat}
    (hnd : (l.map Prod.fst).Nodup) (hmem : (p, v) ∈ l) : lookupEntry l p = v := by
  induction l with
  | nil => cases hmem
  | cons e rest ih =>
    simp only [List.map_cons, List.nodup_cons] at hnd
    rcases List.mem_cons.mp hmem with h | h
    · subst h; simp [lookupEntry]
    · have hne : e.1 ≠ p := by
        intro he
        exact hnd.1 (he ▸ List.mem_map_of_mem Prod.fst h)
      simp only [lookupEntry, if_neg hne]
      exact ih hnd.2 h

theorem exists_val_of_mem_keys {l : List (Coord × Nat)} {p : Coord}
    (h : p ∈ l.map Prod.fst) : ∃ v, (p, v) ∈ l := by
  rcases List.mem_map.mp h with ⟨e, he, hfst⟩
  exact ⟨e.2, by rwa [show (p, e.2) = e from by rw [← hfst]]⟩

theorem mem_keys_setEntry {l : List (Coord × Nat)} {p q : Coord} {v : Nat} :
    q ∈ (setEntry l p v).map Prod.fst ↔ q ∈ l.map Prod.fst ∨ q = p := by
  induction l with
  | nil => simp [setEntry, eq_comm]
  | cons e rest ih =>
    by_cases hep : e.1 = p
    · subst hep
      simp [setEntry, eq_comm, or_comm, or_assoc]
    · simp only [setEntry, if_neg hep, List.map_cons, List.mem_cons, ih]
      tauto

theorem nodup_keys_setEntry {l : List (Coord × Nat)} {p : Coord} {v : Nat}
    (h : (l.map Prod.fst).Nodup) : ((setEntry l p v).map Prod.fst).Nodup := by
  induction l with
  | nil => simp [setEntry]
  | cons e rest ih =>
    simp only [List.map_cons, List.nodup_cons] at h
    by_cases hep : e.1 = p
    · subst hep
      simpa [setEntry] using h
    · simp only [setEntry, if_neg hep, List.map_cons, List.nodup_cons]
      refine ⟨fun hmem => ?_, ih h.2⟩
      rcases mem_keys_setEntry.mp hmem with hin | hin
      · exact h.1 hin
      · exact hep hin

theorem values_setEntry {l : List (Coord × Nat)} {p : Coord}
    (h : ∀ e ∈ l, e.2 = 1) : ∀ e ∈ setEntry l p 1, e.2 = 1 := by
  induction l with
  | nil => simp [setEntry]
  | cons e rest ih =>
    by_cases hep : e.1 = p
    · subst hep
      simp only [setEntry, if_pos rfl]
      intro f hf
      rcases List.mem_cons.mp hf with hfe | hfe
      · simp [hfe]
      · exact h f (List.mem_cons_of_mem _ hfe)
    · simp only [setEntry, if_neg hep]
      intro f hf
      rcases List.mem_cons.mp hf with hfe | hfe
      · exact h f (hfe ▸ List.mem_cons_self _ _)
      · exact ih (fun g hg => h g (List.mem_cons_of_mem _ hg)) f hfe

theorem delEntry_sublist (l : List (Coord × Nat)) (p : Coord) :
    (delEntry l p).Sublist l := by
  induction l with
  | nil => simp [delEntry]
  | cons e rest ih =>
    by_cases hep : e.1 = p
    · simp only [delEntry, if_pos hep]
      exact (List.sublist_cons_self e rest)
    · simp only [delEntry, if_neg hep]
      exact ih.cons₂ e

theorem mem_keys_delEntry {l : List (Coord × Nat)} {p q : Coord}
    (hnd : (l.map Prod.fst).Nodup) :
    q ∈ (delEntry l p).map Prod.fst ↔ q ∈ l.map Prod.fst ∧ q ≠ p := by
  induction l with
  | nil => simp [delEntry]
  | cons e rest ih =>
    simp only [List.map_cons, List.nodup_cons] at hnd
    by_cases hep : e.1 = p
    · subst hep
      simp only [delEntry, if_pos rfl, List.map_cons, List.mem_cons]
      constructor
      · intro hq
        refine ⟨Or.inr hq, fun hqe => hnd.1 (hqe ▸ hq)⟩
      · rintro ⟨hq | hq, hne⟩
        · exact absurd hq hne
        · exact hq
    · simp only [delEntry, if_neg hep, List.map_cons, List.mem_cons, ih hnd.2]
      constructor
      · rintro (hq | ⟨hq, hne⟩)
        · exact ⟨Or.inl hq, fun hqp => hep (hq ▸ hqp)⟩
        · exact ⟨Or.inr hq, hne⟩
      · rintro ⟨hq | hq, hne⟩
        · exact Or.inl hq
        · exact Or.inr ⟨hq, hne⟩

/-! ### Board-level lemmas -/

theorem Life.get_eq_zero_of_not_mem {b : Life} {p : Coord}
    (h : p ∉ b.keysList) : b.get p = 0 :=
  lookupEntry_eq_zero h

theorem Life.mem_of_get_ne_zero {b : Life} {p : Coord}
    (h : b.get p ≠ 0) : p ∈ b.keysList :=
  mem_keys_of_lookupEntry_ne h

theorem Life.get_eq_one {b : Life} {p : Coord} (hWF : b.WF)
    (h : p ∈ b.keysList) : b.get p = 1 := by
  rcases exists_val_of_mem_keys h with ⟨v, hv⟩
  have h1 : v = 1 := hWF.2 (p, v) hv
  exact h1 ▸ lookupEntry_eq_of_mem hWF.1 hv

theorem Life.get_ne_zero_iff {b : Life} {p : Coord} (hWF : b.WF) :
    b.get p ≠ 0 ↔ p ∈ b.keysList := by
  constructor
  · exact Life.mem_of_get_ne_zero
  · intro h
    rw [Life.get_eq_one hWF h]
    exact one_ne_zero

theorem Life.mem_keys_delKey {b : Life} {p q : Coord} (hnd : b.keysList.Nodup) :
    q ∈ (b.delKey p).keysList ↔ q ∈ b.keysList ∧ q ≠ p :=
  mem_keys_delEntry hnd

theorem Life.WF.delKey {b : Life} (hWF : b.WF) (p : Coord) : (b.delKey p).WF := by
  refine ⟨List.Nodup.sublist ((delEntry_sublist b.entries p).map Prod.fst) hWF.1, ?_⟩
  intro e he
  exact hWF.2 e ((delEntry_sublist b.entries p).mem he)

theorem Life.mem_keys_setKey {b : Life} {p q : Coord} {v : Nat} :
    q ∈ (b.setKey p v).keysList ↔ q ∈ b.keysList ∨ q = p :=
  mem_keys_setEntry

theorem Life.WF.setKey {b : Life} (hWF : b.WF) (p : Coord) : (b.setKey p 1).WF :=
  ⟨nodup_keys_setEntry hWF.1, values_setEntry hWF.2⟩

theorem Life.WF.applyDeaths {b : Life} (hWF : b.WF) (l : List Coord) :
    (b.applyDeaths l).WF := by
  induction l generalizing b with
  | nil => exact hWF
  | cons p rest ih =>
    show Life.applyDeaths _ rest |>.WF
    by_cases hp : b.get p ≠ 0
    · simpa [Life.applyDeaths, hp] using ih (hWF.delKey p)
    · simpa [Life.applyDeaths, hp] using ih hWF

theorem Life.mem_keys_applyDeaths {b : Life} {l : List Coord} {q : Coord}
    (hWF : b.WF) :
    q ∈ (b.applyDeaths l).keysList ↔ q ∈ b.keysList ∧ q ∉ l := by
  induction l generalizing b with
  | nil => simp [Life.applyDeaths]
  | cons p rest ih =>
    by_cases hp : b.get p ≠ 0
    · have hmem : p ∈ b.keysList := Life.mem_of_get_ne_zero hp
      have hstep : b.applyDeaths (p :: rest) = (b.delKey p).applyDeaths rest := by
        simp [Life.applyDeaths, hp]
      rw [hstep, ih (hWF.delKey p), Life.mem_keys_delKey hWF.1]
      simp only [List.mem_cons, not_or]
      tauto
    · have hnmem : p ∉ b.keysList := by
        intro hin
        exact hp ((Life.get_ne_zero_iff hWF).mpr hin)
      have hz : b.get p = 0 := not_not.mp hp
      have hstep : b.applyDeaths (p :: rest) = b.applyDeaths rest := by
        simp [Life.applyDeaths, hz]
      rw [hstep, ih hWF]
      simp only [List.mem_cons, not_or]
      constructor
      · rintro ⟨hq, hr⟩
        exact ⟨hq, fun hqp => hnmem (hqp ▸ hq), hr⟩
      · tauto

theorem Life.WF.applyBirths {b : Life} (hWF : b.WF) (l : List Coord) :
    (b.applyBirths l).WF := by
  induction l generalizing b with
  | nil => exact hWF
  | cons p rest ih =>
    simpa [Life.applyBirths] using ih (hWF.setKey p)

theorem Life.mem_keys_applyBirths {b : Life} {l : List Coord} {q : Coord} :
    q ∈ (b.applyBirths l).keysList ↔ q ∈ b.keysList ∨ q ∈ l := by
  induction l generalizing b with
  | nil => simp [Life.applyBirths]
  | cons p rest ih =>
    have hstep : b.applyBirths (p :: rest) = (b.setKey p 1).applyBirths rest := by
      simp [Life.applyBirths]
    rw [hstep, ih, Life.mem_keys_setKey]
    simp only [List.mem_cons]
    tauto

theorem Life.WF.play_game {b : Life} (hWF : b.WF) : b.play_game.WF :=
  (hWF.applyDeaths b.deadList).applyBirths b.liveList

theorem Life.mem_keys_play_game {b : Life} {p : Coord} (hWF : b.WF) :
    p ∈ b.play_game.keysList ↔
      (p ∈ b.keysList ∧ p ∉ b.deadList) ∨ p ∈ b.liveList := by
  unfold Life.play_game
  rw [Life.mem_keys_applyBirths, Life.mem_keys_applyDeaths hWF]

/-! ### Geometry of blocks and neighborhoods -/

theorem mem_blockCoords {p q : Coord} :
    p ∈ blockCoords q ↔
      q.1 - 1 ≤ p.1 ∧ p.1 ≤ q.1 + 1 ∧ q.2 - 1 ≤ p.2 ∧ p.2 ≤ q.2 + 1 := by
  simp only [blockCoords, List.mem_cons, List.not_mem_nil, or_false, Prod.ext_iff]
  omega

theorem self_mem_blockCoords (p : Coord) : p ∈ blockCoords p := by
  rw [mem_blockCoords]
  omega

theorem mem_blockCoords_symm {p q : Coord} :
    p ∈ blockCoords q ↔ q ∈ blockCoords p := by
  rw [mem_blockCoords, mem_blockCoords]
  omega

theorem mem_neighbors {p q : Coord} :
    q ∈ neighbors p ↔ q ∈ blockCoords p ∧ q ≠ p := by
  simp only [neighbors, mem_blockCoords, List.mem_cons, List.not_mem_nil, or_false,
    Prod.ext_iff, ne_eq, not_and]
  omega

theorem Life.mem_queue_cells {b : Life} {p : Coord} :
    p ∈ b.queue_cells ↔ ∃ q ∈ b.keysList, p ∈ blockCoords q := by
  simp [Life.queue_cells, List.mem_flatMap]

theorem Life.mem_queue_of_mem_keys {b : Life} {p : Coord}
    (h : p ∈ b.keysList) : p ∈ b.queue_cells :=
  Life.mem_queue_cells.mpr ⟨p, h, self_mem_blockCoords p⟩

/-! ### The total and the transition lists -/

theorem Life.total_eq {b : Life} {p : Coord} :
    b.total p = b.get p + neighborCount b p := by
  obtain ⟨x, y⟩ := p
  simp only [Life.total, blockCoords, neighborCount, neighbors, List.foldl_cons,
    List.foldl_nil, List.map_cons, List.map_nil, List.sum_cons, List.sum_nil]
  omega

theorem exists_ne_zero_of_sum_ne_zero {l : List Nat} (h : l.sum ≠ 0) :
    ∃ x ∈ l, x ≠ 0 := by
  by_contra hall
  push_neg at hall
  exact h (List.sum_eq_zero hall)

theorem Life.mem_queue_of_neighborCount_ne_zero {b : Life} {p : Coord}
    (h : neighborCount b p ≠ 0) : p ∈ b.queue_cells := by
  rcases exists_ne_zero_of_sum_ne_zero h with ⟨x, hx, hxne⟩
  rcases List.mem_map.mp hx with ⟨q, hq, hqx⟩
  have hqkeys : q ∈ b.keysList := Life.mem_of_get_ne_zero (hqx ▸ hxne)
  have hqblock : q ∈ blockCoords p := (mem_neighbors.mp hq).1
  exact Life.mem_queue_cells.mpr ⟨q, hqkeys, mem_blockCoords_symm.mp hqblock⟩

theorem Life.check_cell_fst {b : Life} {p : Coord} :
    (b.check_cell p).1 = if b.total p = 3 ∧ b.get p = 0 then [p] else [] := by
  unfold Life.check_cell
  by_cases h1 : b.total p = 3 ∧ b.get p = 0
  · simp [h1]
  · by_cases h2 : b.total p < 3 ∨ (4 < b.total p ∧ b.get p ≠ 0) <;> simp [h1, h2]

theorem Life.check_cell_snd {b : Life} {p : Coord} :
    (b.check_cell p).2 =
      if b.total p < 3 ∨ (4 < b.total p ∧ b.get p ≠ 0) then [p] else [] := by
  unfold Life.check_cell
  by_cases h2 : b.total p < 3 ∨ (4 < b.total p ∧ b.get p ≠ 0)
  · have h1 : ¬(b.total p = 3 ∧ b.get p = 0) := by omega
    simp [h1, h2]
  · by_cases h1 : b.total p = 3 ∧ b.get p = 0 <;> simp [h1, h2]

theorem Life.mem_liveList {b : Life} {p : Coord} :
    p ∈ b.liveList ↔ p ∈ b.queue_cells ∧ b.total p = 3 ∧ b.get p = 0 := by
  simp only [Life.liveList, List.mem_flatMap]
  constructor
  · rintro ⟨q, hq, hpq⟩
    rw [Life.check_cell_fst] at hpq
    by_cases hc : b.total q = 3 ∧ b.get q = 0
    · rw [if_pos hc] at hpq
      rcases List.mem_singleton.mp hpq with rfl
      exact ⟨hq, hc⟩
    · rw [if_neg hc] at hpq
      cases hpq
  · rintro ⟨hq, hc⟩
    refine ⟨p, hq, ?_⟩
    rw [Life.check_cell_fst, if_pos hc]
    exact List.mem_singleton.mpr rfl

theorem Life.mem_deadList {b : Life} {p : Coord} :
    p ∈ b.deadList ↔
      p ∈ b.queue_cells ∧ (b.total p < 3 ∨ (4 < b.total p ∧ b.get p ≠ 0)) := by
  simp only [Life.deadList, List.mem_flatMap]
  constructor
  · rintro ⟨q, hq, hpq⟩
    rw [Life.check_cell_snd] at hpq
    by_cases hc : b.total q < 3 ∨ (4 < b.total q ∧ b.get q ≠ 0)
    · rw [if_pos hc] at hpq
      rcases List.mem_singleton.mp hpq with rfl
      exact ⟨hq, hc⟩
    · rw [if_neg hc] at hpq
      cases hpq
  · rintro ⟨hq, hc⟩
    refine ⟨p, hq, ?_⟩
    rw [Life.check_cell_snd, if_pos hc]
    exact List.mem_singleton.mpr rfl

/-! ### Consequences for a whole turn -/

theorem Life.not_mem_liveList_and_deadList (b : Life) (p : Coord) :
    ¬(p ∈ b.liveList ∧ p ∈ b.deadList) := by
  rw [Life.mem_liveList, Life.mem_deadList]
  rintro ⟨⟨_, h3, h0⟩, _, hd⟩
  rcases hd with h | ⟨h4, hne⟩
  · omega
  · exact hne h0

theorem Life.liveSet_play_game {b : Life} (hWF : b.WF) :
    b.play_game.liveSet = (b.liveSet \ b.deadList.toFinset) ∪ b.liveList.toFinset := by
  ext p
  simp only [Life.liveSet, List.mem_toFinset, Finset.mem_union, Finset.mem_sdiff,
    Life.mem_keys_play_game hWF]

theorem Life.length_queue_cells (b : Life) :
    b.queue_cells.length = 9 * b.keysList.length := by
  unfold Life.queue_cells
  induction b.keysList with
  | nil => simp
  | cons q rest ih =>
    simp only [List.flatMap_cons, List.length_append, ih]
    simp [blockCoords]
    omega

theorem Life.card_liveSet_play_game_le {b : Life} (hWF : b.WF) :
    b.play_game.liveSet.card ≤ 9 * b.liveSet.card := by
  have hsub : b.play_game.liveSet ⊆ b.queue_cells.toFinset := by
    intro p hp
    rw [Life.liveSet, List.mem_toFinset, Life.mem_keys_play_game hWF] at hp
    rw [List.mem_toFinset]
    rcases hp with ⟨hk, _⟩ | hl
    · exact Life.mem_queue_of_mem_keys hk
    · exact (Life.mem_liveList.mp hl).1
  calc b.play_game.liveSet.card
      ≤ b.queue_cells.toFinset.card := Finset.card_le_card hsub
    _ ≤ b.queue_cells.length := List.toFinset_card_le _
    _ = 9 * b.keysList.length := Life.length_queue_cells b
    _ = 9 * b.liveSet.card := by
        rw [Life.liveSet, List.toFinset_card_of_nodup hWF.1]

theorem Life.play_game_standard {b : Life} (hWF : b.WF) (p : Coord) :
    p ∈ b.play_game.keysList ↔ standardNext b p = true := by
  rw [Life.mem_keys_play_game hWF]
  by_cases hmem : p ∈ b.keysList
  · have hget : b.get p = 1 := Life.get_eq_one hWF hmem
    have hq : p ∈ b.queue_cells := Life.mem_queue_of_mem_keys hmem
    have htot : b.total p = 1 + neighborCount b p := by rw [Life.total_eq, hget]
    have hsn : standardNext b p = true ↔
        (neighborCount b p = 2 ∨ neighborCount b p = 3) := by
      simp [standardNext, hget]
    have hdead : p ∈ b.deadList ↔ (b.total p < 3 ∨ 4 < b.total p) := by
      rw [Life.mem_deadList]
      constructor
      · rintro ⟨_, h | ⟨h, _⟩⟩
        · exact Or.inl h
        · exact Or.inr h
      · intro h
        refine ⟨hq, ?_⟩
        rcases h with h | h
        · exact Or.inl h
        · exact Or.inr ⟨h, by rw [hget]; exact one_ne_zero⟩
    have hlive : p ∉ b.liveList := by
      rw [Life.mem_liveList]
      rintro ⟨_, _, h0⟩
      rw [hget] at h0
      exact one_ne_zero h0
    rw [hsn]
    constructor
    · rintro (⟨_, hnd⟩ | hl)
      · rw [hdead] at hnd
        push_neg at hnd
        omega
      · exact absurd hl hlive
    · intro hn
      left
      refine ⟨hmem, ?_⟩
      rw [hdead]
      push_neg
      omega
  · have hget : b.get p = 0 := Life.get_eq_zero_of_not_mem hmem
    have htot : b.total p = neighborCount b p := by
      rw [Life.total_eq, hget, Nat.zero_add]
    have hsn : standardNext b p = true ↔ neighborCount b p = 3 := by
      simp [standardNext, hget]
    have hlive : p ∈ b.liveList ↔ neighborCount b p = 3 := by
      rw [Life.mem_liveList]
      constructor
      · rintro ⟨_, h3, _⟩
        omega
      · intro h3
        exact ⟨Life.mem_queue_of_neighborCount_ne_zero (by omega), by omega, hget⟩
    rw [hsn]
    constructor
    · rintro (⟨hk, _⟩ | hl)
      · exact absurd hk hmem
      · exact hlive.mp hl
    · intro h3
      exact Or.inr (hlive.mpr h3)

/-! ### Permutation invariance of a turn -/

theorem lookupEntry_perm {l m : List (Coord × Nat)} (hnd : (l.map Prod.fst).Nodup)
    (hp : l.Perm m) (p : Coord) : lookupEntry l p = lookupEntry m p := by
  by_cases hmem : p ∈ l.map Prod.fst
  · rcases exists_val_of_mem_keys hmem with ⟨v, hv⟩
    rw [lookupEntry_eq_of_mem hnd hv,
      lookupEntry_eq_of_mem ((hp.map Prod.fst).nodup_iff.mp hnd) (hp.mem_iff.mp hv)]
  · rw [lookupEntry_eq_zero hmem,
      lookupEntry_eq_zero (fun hm => hmem ((hp.map Prod.fst).mem_iff.mpr hm))]

theorem Life.liveSet_play_game_perm {b c : Life} (hb : b.WF) (hc : c.WF)
    (hperm : b.entries.Perm c.entries) :
    b.play_game.liveSet = c.play_game.liveSet := by
  have hget : ∀ q, b.get q = c.get q := fun q => lookupEntry_perm hb.1 hperm q
  have htot : ∀ q, b.total q = c.total q := by
    intro q
    simp only [Life.total, blockCoords, List.foldl_cons, List.foldl_nil, hget]
  have hkeys : ∀ q, q ∈ b.keysList ↔ q ∈ c.keysList :=
    fun q => (hperm.map Prod.fst).mem_iff
  have hqueue : ∀ q, q ∈ b.queue_cells ↔ q ∈ c.queue_cells := by
    intro q
    rw [Life.mem_queue_cells, Life.mem_queue_cells]
    constructor
    · rintro ⟨r, hr, hqr⟩
      exact ⟨r, (hkeys r).mp hr, hqr⟩
    · rintro ⟨r, hr, hqr⟩
      exact ⟨r, (hkeys r).mpr hr, hqr⟩
  have hlive : ∀ q, q ∈ b.liveList ↔ q ∈ c.liveList := by
    intro q
    rw [Life.mem_liveList, Life.mem_liveList, hqueue q, htot q, hget q]
  have hdead : ∀ q, q ∈ b.deadList ↔ q ∈ c.deadList := by
    intro q
    rw [Life.mem_deadList, Life.mem_deadList, hqueue q, htot q, hget q]
  ext q
  simp only [Life.liveSet, List.mem_toFinset, Life.mem_keys_play_game hb,
    Life.mem_keys_play_game hc, hkeys q, hlive q, hdead q]

theorem Life.liveSet_play_game_birthsFirst {b : Life} (hWF : b.WF) :
    b.play_game_birthsFirst.liveSet = b.play_game.liveSet := by
  have hWFb : (b.applyBirths b.liveList).WF := hWF.applyBirths _
  ext p
  simp only [Life.play_game_birthsFirst, Life.play_game, Life.liveSet,
    List.mem_toFinset, Life.mem_keys_applyDeaths hWFb, Life.mem_keys_applyBirths,
    Life.mem_keys_applyDeaths hWF]
  constructor
  · rintro ⟨hk | hl, hnd⟩
    · exact Or.inl ⟨hk, hnd⟩
    · exact Or.inr hl
  · rintro (⟨hk, hnd⟩ | hl)
    · exact ⟨Or.inl hk, hnd⟩
    · exact ⟨Or.inr hl, fun hd => Life.not_mem_liveList_and_deadList b p ⟨hl, hd⟩⟩

/-! ### Reads are pure and deletions never raise -/

theorem lookupEntryS_eq (l : List (Coord × Nat)) (p : Coord) :
    lookupEntryS l p = (lookupEntry l p, l) := by
  induction l with
  | nil => rfl
  | cons e rest ih =>
    by_cases hep : e.1 = p
    · simp [lookupEntryS, lookupEntry, hep]
    · simp [lookupEntryS, lookupEntry, hep, ih]

theorem Life.getS_eq (b : Life) (p : Coord) : b.getS p = (b.get p, b) := by
  simp [Life.getS, Life.get, lookupEntryS_eq]

theorem foldl_getS_eq (b : Life) (l : List Coord) (a : Nat) :
    l.foldl (fun acc q =>
      let g := acc.2.getS q
      (acc.1 + g.1, g.2)) (a, b)
      = (l.foldl (fun t q => t + b.get q) a, b) := by
  induction l generalizing a with
  | nil => rfl
  | cons q rest ih =>
    have h1 : (let g := ((a, b) : Nat × Life).2.getS q
        (((a, b) : Nat × Life).1 + g.1, g.2)) = (a + b.get q, b) := by
      simp [Life.getS_eq]
    rw [List.foldl_cons, h1, ih, List.foldl_cons]

theorem Life.check_cellS_eq (b : Life) (p : Coord) :
    b.check_cellS p = (b.check_cell p, b) := by
  show (let r := (blockCoords p).foldl (fun acc q =>
      let g := acc.2.getS q
      (acc.1 + g.1, g.2)) (0, b)
    let c := r.2.getS p
    if r.1 = 3 ∧ c.1 = 0 then (([p], []), c.2)
    else if r.1 < 3 ∨ (4 < r.1 ∧ c.1 ≠ 0) then (([], [p]), c.2)
    else (([], []), c.2)) = (b.check_cell p, b)
  rw [foldl_getS_eq]
  simp only [Life.getS_eq, Life.check_cell, Life.total]
  by_cases h1 : (blockCoords p).foldl (fun t q => t + b.get q) 0 = 3 ∧ b.get p = 0
  · simp [h1]
  · by_cases h2 : (blockCoords p).foldl (fun t q => t + b.get q) 0 < 3 ∨
        (4 < (blockCoords p).foldl (fun t q => t + b.get q) 0 ∧ b.get p ≠ 0)
    · simp [h1, h2]
    · simp [h1, h2]

theorem delEntryE_eq {l : List (Coord × Nat)} {p : Coord}
    (h : p ∈ l.map Prod.fst) : delEntryE l p = some (delEntry l p) := by
  induction l with
  | nil => cases h
  | cons e rest ih =>
    simp only [List.map_cons, List.mem_cons] at h
    by_cases hep : e.1 = p
    · simp [delEntryE, delEntry, hep]
    · have hrest : p ∈ rest.map Prod.fst := by
        rcases h with h1 | h1
        · exact absurd h1.symm hep
        · exact h1
      simp [delEntryE, delEntry, hep, ih hrest]

theorem Life.applyDeathsE_eq (b : Life) (l : List Coord) :
    b.applyDeathsE l = some (b.applyDeaths l) := by
  induction l generalizing b with
  | nil => rfl
  | cons p rest ih =>
    have hunfold : b.applyDeathsE (p :: rest) =
        (if b.get p ≠ 0 then (delEntryE b.entries p).map Life.mk else some b) >>=
          fun s => s.applyDeathsE rest := rfl
    by_cases hp : b.get p ≠ 0
    · have hmem : p ∈ b.keysList := Life.mem_of_get_ne_zero hp
      have hdel : delEntryE b.entries p = some (delEntry b.entries p) :=
        delEntryE_eq hmem
      have hstep : (if b.get p ≠ 0 then (delEntryE b.entries p).map Life.mk
          else some b) = some (b.delKey p) := by
        rw [if_pos hp, hdel]
        rfl
      have happ : b.applyDeaths (p :: rest) = (b.delKey p).applyDeaths rest := by
        simp [Life.applyDeaths, hp]
      rw [hunfold, hstep]
      show (b.delKey p).applyDeathsE rest = some (b.applyDeaths (p :: rest))
      rw [happ]
      exact ih (b.delKey p)
    · have hz : b.get p = 0 := not_not.mp hp
      have happ : b.applyDeaths (p :: rest) = b.applyDeaths rest := by
        simp [Life.applyDeaths, hz]
      rw [hunfold, if_neg hp]
      show b.applyDeathsE rest = some (b.applyDeaths (p :: rest))
      rw [happ]
      exact ih b

theorem Life.play_gameE_eq (b : Life) : b.play_gameE = some b.play_game := by
  unfold Life.play_gameE Life.play_game
  rw [Life.applyDeathsE_eq]
  rfl

/-! ### Translation invariance -/

theorem shift_inj {d p q : Coord} : shift d p = shift d q ↔ p = q := by
  simp only [shift, Prod.ext_iff]
  omega

theorem lookupEntry_translate (d : Coord) (l : List (Coord × Nat)) (p : Coord) :
    lookupEntry (l.map (fun e => (shift d e.1, e.2))) (shift d p) = lookupEntry l p := by
  induction l with
  | nil => rfl
  | cons e rest ih =>
    by_cases hep : e.1 = p
    · simp [lookupEntry, hep]
    · have hne : ¬ shift d e.1 = shift d p := fun h => hep (shift_inj.mp h)
      simp [lookupEntry, hep, hne, ih]

theorem Life.get_translate (b : Life) (d p : Coord) :
    (b.translate d).get (shift d p) = b.get p :=
  lookupEntry_translate d b.entries p

theorem blockCoords_shift (d p : Coord) :
    blockCoords (shift d p) = (blockCoords p).map (shift d) := by
  simp only [blockCoords, shift, List.map_cons, List.map_nil, List.cons.injEq,
    Prod.mk.injEq]
  norm_num
  constructorm* _ ∧ _ <;> ring

theorem Life.keysList_translate (b : Life) (d : Coord) :
    (b.translate d).keysList = b.keysList.map (shift d) := by
  simp [Life.keysList, Life.translate, List.map_map]

theorem Life.total_translate (b : Life) (d p : Coord) :
    (b.translate d).total (shift d p) = b.total p := by
  simp only [Life.total, blockCoords_shift, List.foldl_map, Life.get_translate]

theorem Life.check_cell_translate (b : Life) (d p : Coord) :
    (b.translate d).check_cell (shift d p) =
      ((b.check_cell p).1.map (shift d), (b.check_cell p).2.map (shift d)) := by
  unfold Life.check_cell
  rw [Life.total_translate, Life.get_translate]
  by_cases h1 : b.total p = 3 ∧ b.get p = 0
  · simp [h1]
  · by_cases h2 : b.total p < 3 ∨ (4 < b.total p ∧ b.get p ≠ 0)
    · simp [h1, h2]
    · simp [h1, h2]

theorem Life.queue_cells_translate (b : Life) (d : Coord) :
    (b.translate d).queue_cells = b.queue_cells.map (shift d) := by
  unfold Life.queue_cells
  rw [Life.keysList_translate, List.flatMap_map, List.map_flatMap]
  simp only [blockCoords_shift] 

theorem Life.liveList_translate (b : Life) (d : Coord) :
    (b.translate d).liveList = b.liveList.map (shift d) := by
  unfold Life.liveList
  rw [Life.queue_cells_translate, List.flatMap_map, List.map_flatMap]
  simp only [Life.check_cell_translate]

theorem Life.deadList_translate (b : Life) (d : Coord) :
    (b.translate d).deadList = b.deadList.map (shift d) := by
  unfold Life.deadList
  rw [Life.queue_cells_translate, List.flatMap_map, List.map_flatMap]
  simp only [Life.check_cell_translate]

theorem delEntry_translate (d : Coord) (l : List (Coord × Nat)) (p : Coord) :
    delEntry (l.map (fun e => (shift d e.1, e.2))) (shift d p) =
      (delEntry l p).map (fun e => (shift d e.1, e.2)) := by
  induction l with
  | nil => rfl
  | cons e rest ih =>
    by_cases hep : e.1 = p
    · simp [delEntry, hep]
    · have hne : ¬ shift d e.1 = shift d p := fun h => hep (shift_inj.mp h)
      simp [delEntry, hep, hne, ih]

theorem setEntry_translate (d : Coord) (l : List (Coord × Nat)) (p : Coord) (v : Nat) :
    setEntry (l.map (fun e => (shift d e.1, e.2))) (shift d p) v =
      (setEntry l p v).map (fun e => (shift d e.1, e.2)) := by
  induction l with
  | nil => rfl
  | cons e rest ih =>
    by_cases hep : e.1 = p
    · simp [setEntry, hep]
    · have hne : ¬ shift d e.1 = shift d p := fun h => hep (shift_inj.mp h)
      simp [setEntry, hep, hne, ih]

theorem Life.delKey_translate (b : Life) (d p : Coord) :
    (b.translate d).delKey (shift d p) = (b.delKey p).translate d := by
  simp [Life.delKey, Life.translate, delEntry_translate]

theorem Life.setKey_translate (b : Life) (d p : Coord) (v : Nat) :
    (b.translate d).setKey (shift d p) v = (b.setKey p v).translate d := by
  simp [Life.setKey, Life.translate, setEntry_translate]

theorem Life.applyDeaths_translate (b : Life) (d : Coord) (l : List Coord) :
    (b.translate d).applyDeaths (l.map (shift d)) = (b.applyDeaths l).translate d := by
  induction l generalizing b with
  | nil => rfl
  | cons p rest ih =>
    have hget := Life.get_translate b d p
    by_cases hp : b.get p ≠ 0
    · have h1 : (b.translate d).applyDeaths ((p :: rest).map (shift d)) =
          ((b.translate d).delKey (shift d p)).applyDeaths (rest.map (shift d)) := by
        simp [Life.applyDeaths, hget, hp]
      have h2 : b.applyDeaths (p :: rest) = (b.delKey p).applyDeaths rest := by
        simp [Life.applyDeaths, hp]
      rw [h1, h2, Life.delKey_translate, ih]
    · have hz : b.get p = 0 := not_not.mp hp
      have h1 : (b.translate d).applyDeaths ((p :: rest).map (shift d)) =
          (b.translate d).applyDeaths (rest.map (shift d)) := by
        simp [Life.applyDeaths, hget, hz]
      have h2 : b.applyDeaths (p :: rest) = b.applyDeaths rest := by
        simp [Life.applyDeaths, hz]
      rw [h1, h2, ih]

theorem Life.applyBirths_translate (b : Life) (d : Coord) (l : List Coord) :
    (b.translate d).applyBirths (l.map (shift d)) = (b.applyBirths l).translate d := by
  induction l generalizing b with
  | nil => rfl
  | cons p rest ih =>
    have h1 : (b.translate d).applyBirths ((p :: rest).map (shift d)) =
        ((b.translate d).setKey (shift d p) 1).applyBirths (rest.map (shift d)) := by
      simp [Life.applyBirths]
    have h2 : b.applyBirths (p :: rest) = (b.setKey p 1).applyBirths rest := by
      simp [Life.applyBirths]
    rw [h1, h2, Life.setKey_translate, ih]

theorem Life.play_game_translate (b : Life) (d : Coord) :
    (b.translate d).play_game = b.play_game.translate d := by
  unfold Life.play_game
  rw [Life.deadList_translate, Life.liveList_translate,
    Life.applyDeaths_translate, Life.applyBirths_translate]

theorem Life.liveSet_translate (b : Life) (d : Coord) :
    (b.translate d).liveSet = b.liveSet.image (shift d) := by
  ext q
  simp [Life.liveSet, Life.keysList_translate, Finset.mem_image]

/-! ### Claims -/

/-- C1, counterexample: on the board with a single live cell at the origin,
the dead coordinate (1, 1) (block total 1) is appended to the dead list by
`check_cell`, so a currently-dead coordinate can be scheduled for death. -/
theorem C1_counterexample :
    singleBoard.get (1, 1) = 0 ∧ (1, 1) ∈ (singleBoard.check_cell (1, 1)).2 := by
  decide

/-- C1, amended: a coordinate is appended to the dead list by `check_cell`
iff its block total is less than 3 — regardless of whether it is currently
alive — or it is currently alive and its block total exceeds 4.  For an
alive coordinate this is the claimed condition; a dead coordinate with
block total below 3 is also appended (its removal is later a no-op). -/
theorem C1_amended_dead_schedule (b : Life) (p q : Coord) :
    q ∈ (b.check_cell p).2 ↔
      q = p ∧ (b.total p < 3 ∨ (4 < b.total p ∧ b.get p ≠ 0)) := by
  rw [Life.check_cell_snd]
  by_cases hc : b.total p < 3 ∨ (4 < b.total p ∧ b.get p ≠ 0)
  · simp [hc]
  · simp [hc]

/-- C2: the combined-total rule of `check_cell`, as applied by `play_game`,
yields exactly the textbook Game of Life rule over the neighbor count
excluding self: a cell is alive after the turn iff it was dead with exactly
3 live neighbors, or alive with exactly 2 or 3 live neighbors. -/
theorem C2_combined_total_is_standard_rule {b : Life} (hWF : b.WF) (p : Coord) :
    p ∈ b.play_game.keysList ↔ standardNext b p = true :=
  Life.play_game_standard hWF p

/-- C2, witness at the blinker board and the coordinate (2, 1). -/
theorem C2_witness :
    blinkerBoard.WF ∧
      ((2, 1) ∈ blinkerBoard.play_game.keysList ↔
        standardNext blinkerBoard (2, 1) = true) :=
  ⟨by decide, C2_combined_total_is_standard_rule (by decide) (2, 1)⟩

/-- C3: one call to `play_game` computes all transitions against the
unmodified board, and the resulting live set is exactly the current live
set minus the collected deaths, union the collected births. -/
theorem C3_simultaneous_update {b : Life} (hWF : b.WF) :
    b.play_game.liveSet =
      (b.liveSet \ b.deadList.toFinset) ∪ b.liveList.toFinset :=
  Life.liveSet_play_game hWF

/-- C3, witness at the blinker board. -/
theorem C3_witness :
    blinkerBoard.WF ∧
      blinkerBoard.play_game.liveSet =
        (blinkerBoard.liveSet \ blinkerBoard.deadList.toFinset) ∪
          blinkerBoard.liveList.toFinset :=
  ⟨by decide, C3_simultaneous_update (by decide)⟩

/-- C4: the representation invariant (distinct keys, every stored value 1)
is preserved by `play_game`; a lookup of an absent coordinate returns 0,
and the state-threaded read returns the value together with the board
completely unchanged (no entry is added by `__missing__`). -/
theorem C4_representation_invariant {b : Life} (hWF : b.WF) :
    b.play_game.WF
    ∧ (∀ p, p ∉ b.keysList → b.get p = 0)
    ∧ (∀ p, b.getS p = (b.get p, b)) :=
  ⟨hWF.play_game, fun _ h => Life.get_eq_zero_of_not_mem h,
    fun p => Life.getS_eq b p⟩

/-- C4, witness at the blinker board. -/
theorem C4_witness :
    blinkerBoard.WF ∧
      (blinkerBoard.play_game.WF
       ∧ (∀ p, p ∉ blinkerBoard.keysList → blinkerBoard.get p = 0)
       ∧ (∀ p, blinkerBoard.getS p = (blinkerBoard.get p, blinkerBoard))) :=
  ⟨by decide, C4_representation_invariant (by decide)⟩

/-- C5: after one `play_game` the live set (a finite set by construction)
has at most 9 times as many coordinates as the live set before. -/
theorem C5_sparseness {b : Life} (hWF : b.WF) :
    b.play_game.liveSet.card ≤ 9 * b.liveSet.card :=
  Life.card_liveSet_play_game_le hWF

/-- C5, witness at the blinker board. -/
theorem C5_witness :
    blinkerBoard.WF ∧
      blinkerBoard.play_game.liveSet.card ≤ 9 * blinkerBoard.liveSet.card :=
  ⟨by decide, C5_sparseness (by decide)⟩

/-- C6: the horizontal blinker (1,0),(2,0),(3,0) becomes exactly the
vertical blinker (2,-1),(2,0),(2,1) after one `play_game`, and returns to
exactly the original live set after a second `play_game` — period 2. -/
theorem C6_blinker_period_two :
    blinkerBoard.play_game.liveSet = ({(2, -1), (2, 0), (2, 1)} : Finset Coord)
    ∧ blinkerBoard.play_game.play_game.liveSet =
        ({(1, 0), (2, 0), (3, 0)} : Finset Coord) := by
  decide

/-- C7: translating every entry by a constant vector and then playing one
turn produces exactly the translated result of playing the turn first —
both as dictionaries and as live sets. -/
theorem C7_translation_invariance (b : Life) (d : Coord) :
    (b.translate d).play_game = b.play_game.translate d
    ∧ (b.translate d).play_game.liveSet = b.play_game.liveSet.image (shift d) := by
  refine ⟨Life.play_game_translate b d, ?_⟩
  rw [Life.play_game_translate, Life.liveSet_translate]

/-- C8: `queue_cells` contains a coordinate iff it is currently live or is
one of the 8 immediate neighbors of a currently-live coordinate. -/
theorem C8_candidate_coordinates (b : Life) (p : Coord) :
    p ∈ b.queue_cells ↔
      p ∈ b.keysList ∨ ∃ q ∈ b.keysList, p ∈ neighbors q := by
  rw [Life.mem_queue_cells]
  constructor
  · rintro ⟨q, hq, hblock⟩
    by_cases hpq : p = q
    · exact Or.inl (hpq ▸ hq)
    · exact Or.inr ⟨q, hq, mem_neighbors.mpr ⟨hblock, hpq⟩⟩
  · rintro (hp | ⟨q, hq, hn⟩)
    · exact ⟨p, hp, self_mem_blockCoords p⟩
    · exact ⟨q, hq, (mem_neighbors.mp hn).1⟩

/-- C9: the check step leaves the board's stored entries completely
unchanged (shown on the state-threaded embedding, which also returns the
same transition lists as `check_cell`), the missing-key read is pure, and
`play_game` with the fallible `del` never raises — it always returns
`some` of the pure result. -/
theorem C9_reads_pure_operations_total (b : Life) (p : Coord) :
    (b.check_cellS p).2 = b
    ∧ (b.check_cellS p).1 = b.check_cell p
    ∧ (b.getS p).2 = b
    ∧ b.play_gameE = some b.play_game := by
  refine ⟨?_, ?_, ?_, Life.play_gameE_eq b⟩
  · rw [Life.check_cellS_eq]
  · rw [Life.check_cellS_eq]
  · rw [Life.getS_eq]

/-- C10: the live set after `play_game` depends only on the prior live
set: permuting the stored entries yields the same resulting live set, the
birth and death lists collected in one turn never share a coordinate, and
applying births before deaths yields the same live set as deaths before
births. -/
theorem C10_order_independence {b c : Life} (hb : b.WF) (hc : c.WF)
    (hperm : b.entries.Perm c.entries) :
    b.play_game.liveSet = c.play_game.liveSet
    ∧ (∀ p, ¬(p ∈ b.liveList ∧ p ∈ b.deadList))
    ∧ b.play_game_birthsFirst.liveSet = b.play_game.liveSet :=
  ⟨Life.liveSet_play_game_perm hb hc hperm,
    Life.not_mem_liveList_and_deadList b,
    Life.liveSet_play_game_birthsFirst hb⟩

/-- C10, witness: the blinker board and its reversed-insertion-order copy. -/
theorem C10_witness :
    blinkerBoard.WF ∧ blinkerBoardRev.WF ∧
      blinkerBoard.entries.Perm blinkerBoardRev.entries ∧
      (blinkerBoard.play_game.liveSet = blinkerBoardRev.play_game.liveSet
       ∧ (∀ p, ¬(p ∈ blinkerBoard.liveList ∧ p ∈ blinkerBoard.deadList))
       ∧ blinkerBoard.play_game_birthsFirst.liveSet =
           blinkerBoard.play_game.liveSet) :=
  ⟨by decide, by decide, by decide,
    C10_order_independence (by decide) (by decide) (by decide)⟩
